import Mathlib

/-!
Verification of the SpamCoin blockchain demo (src/spamcoin.py).

The development shallowly embeds the Python source: bytes are `Nat` values
below 256, SHA-256 is implemented over byte lists with 32-bit words as
`Nat` reduced modulo 2 ^ 32, the hashlib object API (`update` calls followed
by `hexdigest`) is embedded by its documented semantics of accumulating the
fed bytes, timestamps are carried as their `isoformat` string (the only
operation the source performs on them), the wall clock is an explicit
parameter (`Timestamp` arguments, and a `clock` stream for the chain
builder), and the unbounded `while` loop of the miner is embedded with an
explicit fuel argument returning `Option`.
-/

namespace SpamCoin

/-- Bitwise complement on 32-bit words represented as `Nat`. -/
def bnot32 (x : Nat) : Nat := 0xFFFFFFFF ^^^ x

/-- Right rotation of a 32-bit word. -/
def rotr (n x : Nat) : Nat := ((x >>> n) ||| (x <<< (32 - n))) &&& 0xFFFFFFFF

/-- SHA-256 Ch function. -/
def ch (x y z : Nat) : Nat := (x &&& y) ^^^ (bnot32 x &&& z)

/-- SHA-256 Maj function. -/
def maj (x y z : Nat) : Nat := (x &&& y) ^^^ (x &&& z) ^^^ (y &&& z)

/-- SHA-256 big sigma 0. -/
def bigSigma0 (x : Nat) : Nat := rotr 2 x ^^^ rotr 13 x ^^^ rotr 22 x

/-- SHA-256 big sigma 1. -/
def bigSigma1 (x : Nat) : Nat := rotr 6 x ^^^ rotr 11 x ^^^ rotr 25 x

/-- SHA-256 small sigma 0. -/
def smallSigma0 (x : Nat) : Nat := rotr 7 x ^^^ rotr 18 x ^^^ (x >>> 3)

/-- SHA-256 small sigma 1. -/
def smallSigma1 (x : Nat) : Nat := rotr 17 x ^^^ rotr 19 x ^^^ (x >>> 10)

/-- The 64 SHA-256 round constants. -/
def sha256K : List Nat :=
  [
   1116352408, 1899447441, 3049323471, 3921009573, 961987163,
   1508970993, 2453635748, 2870763221, 3624381080, 310598401,
   607225278, 1426881987, 1925078388, 2162078206, 2614888103,
   3248222580, 3835390401, 4022224774, 264347078, 604807628,
   770255983, 1249150122, 1555081692, 1996064986, 2554220882,
   2821834349, 2952996808, 3210313671, 3336571891, 3584528711,
   113926993, 338241895, 666307205, 773529912, 1294757372,
   1396182291, 1695183700, 1986661051, 2177026350, 2456956037,
   2730485921, 2820302411, 3259730800, 3345764771, 3516065817,
   3600352804, 4094571909, 275423344, 430227734, 506948616,
   659060556, 883997877, 958139571, 1322822218, 1537002063,
   1747873779, 1955562222, 2024104815, 2227730452, 2361852424,
   2428436474, 2756734187, 3204031479, 3329325298
  ]

/-- The SHA-256 initial hash value. -/
def sha256H0 : List Nat :=
  [
   1779033703, 3144134277, 1013904242, 2773480762, 1359893119,
   2600822924, 528734635, 1541459225
  ]

/-- Big-endian 4-byte encoding of a 32-bit word. -/
def be32 (n : Nat) : List Nat :=
  [(n >>> 24) &&& 255, (n >>> 16) &&& 255, (n >>> 8) &&& 255, n &&& 255]

/-- Big-endian 8-byte encoding of a 64-bit value. -/
def be64 (n : Nat) : List Nat :=
  [(n >>> 56) &&& 255, (n >>> 48) &&& 255, (n >>> 40) &&& 255, (n >>> 32) &&& 255,
   (n >>> 24) &&& 255, (n >>> 16) &&& 255, (n >>> 8) &&& 255, n &&& 255]

/-- SHA-256 message padding: append 0x80, zero bytes to reach 56 mod 64, then
the message bit length as 8 big-endian bytes. -/
def padMessage (msg : List Nat) : List Nat :=
  let len := msg.length
  let z := (64 + 56 - (len + 1) % 64) % 64
  msg ++ [0x80] ++ List.replicate z 0 ++ be64 (len * 8)

/-- Big-endian 32-bit word read at word index `i` of a 64-byte block. -/
def beWord (block : List Nat) (i : Nat) : Nat :=
  (block.getD (4 * i) 0 <<< 24) ||| (block.getD (4 * i + 1) 0 <<< 16) |||
  (block.getD (4 * i + 2) 0 <<< 8) ||| block.getD (4 * i + 3) 0

/-- Extend the 16-word message schedule by `n` further words. -/
def extendW : Nat → List Nat → List Nat
  | 0, w => w
  | n + 1, w =>
    let t := w.length
    extendW n (w ++ [(smallSigma1 (w.getD (t - 2) 0) + w.getD (t - 7) 0 +
      smallSigma0 (w.getD (t - 15) 0) + w.getD (t - 16) 0) % 2 ^ 32])

/-- One pass of the 64 SHA-256 rounds, consuming paired round constants and
schedule words. -/
def sha256Rounds : List (Nat × Nat) → Nat × Nat × Nat × Nat × Nat × Nat × Nat × Nat →
    Nat × Nat × Nat × Nat × Nat × Nat × Nat × Nat
  | [], st => st
  | (kt, wt) :: rest, (a, b, c, d, e, f, g, h) =>
    let t1 := (h + bigSigma1 e + ch e f g + kt + wt) % 2 ^ 32
    let t2 := (bigSigma0 a + maj a b c) % 2 ^ 32
    sha256Rounds rest ((t1 + t2) % 2 ^ 32, a, b, c, (d + t1) % 2 ^ 32, e, f, g)

/-- SHA-256 compression of one 64-byte block into the running 8-word state. -/
def sha256Compress (h : List Nat) (block : List Nat) : List Nat :=
  let w := extendW 48 ((List.range 16).map (beWord block))
  let st := (h.getD 0 0, h.getD 1 0, h.getD 2 0, h.getD 3 0,
             h.getD 4 0, h.getD 5 0, h.getD 6 0, h.getD 7 0)
  match sha256Rounds (sha256K.zip w) st with
  | (a, b, c, d, e, f, g, hh) =>
    [(h.getD 0 0 + a) % 2 ^ 32, (h.getD 1 0 + b) % 2 ^ 32, (h.getD 2 0 + c) % 2 ^ 32,
     (h.getD 3 0 + d) % 2 ^ 32, (h.getD 4 0 + e) % 2 ^ 32, (h.getD 5 0 + f) % 2 ^ 32,
     (h.getD 6 0 + g) % 2 ^ 32, (h.getD 7 0 + hh) % 2 ^ 32]

/-- Fold the compression function over successive 64-byte blocks; `fuel`
bounds the recursion and exceeds the block count whenever it is at least the
byte count. -/
def sha256Blocks : Nat → List Nat → List Nat → List Nat
  | _, h, [] => h
  | 0, h, _ => h
  | fuel + 1, h, msg => sha256Blocks fuel (sha256Compress h (msg.take 64)) (msg.drop 64)

/-- SHA-256 of a byte list, returned as the 32 digest bytes. -/
def sha256 (msg : List Nat) : List Nat :=
  let padded := padMessage msg
  (sha256Blocks padded.length sha256H0 padded).foldr (fun w acc => be32 w ++ acc) []

/-- Lowercase hexadecimal digit for a value below 16. -/
def hexChar (n : Nat) : Char := if n < 10 then Char.ofNat (48 + n) else Char.ofNat (87 + n)

/-- Lowercase hexadecimal string of a byte list. -/
def hexOfBytes (bs : List Nat) : String :=
  String.mk (bs.foldr (fun b acc => hexChar ((b >>> 4) &&& 15) :: hexChar (b &&& 15) :: acc) [])

/-- UTF-8 encoding of one character. -/
def utf8Char (c : Char) : List Nat :=
  let n := c.toNat
  if n < 0x80 then [n]
  else if n < 0x800 then [0xC0 ||| (n >>> 6), 0x80 ||| (n &&& 0x3F)]
  else if n < 0x10000 then
    [0xE0 ||| (n >>> 12), 0x80 ||| ((n >>> 6) &&& 0x3F), 0x80 ||| (n &&& 0x3F)]
  else
    [0xF0 ||| (n >>> 18), 0x80 ||| ((n >>> 12) &&& 0x3F), 0x80 ||| ((n >>> 6) &&& 0x3F),
     0x80 ||| (n &&& 0x3F)]

/-- UTF-8 encoding of a string, the embedding of Python `str.encode` with
encoding utf-8. -/
def strBytes (s : String) : List Nat :=
  s.data.foldr (fun c acc => utf8Char c ++ acc) []

/-- The hashlib context right after `hashlib.sha256()`: no bytes fed yet. -/
def shaInit : List Nat := []

/-- The hashlib `update` method: semantically, feeding bytes appends them to
the bytes hashed so far. -/
def shaUpdate (ctx msg : List Nat) : List Nat := ctx ++ msg

/-- The hashlib `hexdigest` method: the lowercase hex encoding of the SHA-256
digest of all bytes fed so far. -/
def shaHexdigest (ctx : List Nat) : String := hexOfBytes (sha256 ctx)

/-- A timestamp, carried as the string its `isoformat` method returns — the
only operation the source ever performs on a timestamp. -/
structure Timestamp where
  isoformat : String
deriving DecidableEq

/-- The Block record of spamcoin.py: five content fields plus the derived
`hash` field computed at construction. -/
structure Block where
  height : Nat
  timestamp : Timestamp
  data : String
  previous_hash : String
  nonce : Nat
  hash : String
deriving DecidableEq

/-- Embedding of `Block.hash_block`: five sequential `sha.update` calls on
the utf-8 encodings of `str(height)`, `timestamp.isoformat()`, `str(data)`,
`str(previous_hash)` and `str(nonce)`, then `sha.hexdigest()`. -/
def hash_block (height : Nat) (timestamp : Timestamp) (data previous_hash : String)
    (nonce : Nat) : String :=
  shaHexdigest
    (shaUpdate
      (shaUpdate
        (shaUpdate
          (shaUpdate
            (shaUpdate shaInit (strBytes (Nat.repr height)))
            (strBytes timestamp.isoformat))
          (strBytes data))
        (strBytes previous_hash))
      (strBytes (Nat.repr nonce)))

/-- Embedding of `Block.__init__`: store the five arguments and compute the
`hash` field once via `hash_block`. -/
def Block.make (height : Nat) (timestamp : Timestamp) (data previous_hash : String)
    (nonce : Nat) : Block :=
  { height := height, timestamp := timestamp, data := data,
    previous_hash := previous_hash, nonce := nonce,
    hash := hash_block height timestamp data previous_hash nonce }

/-- Recomputing the digest of an already-built block from its five content
fields, as `self.hash_block()` would if called again. -/
def Block.rehash (b : Block) : String :=
  hash_block b.height b.timestamp b.data b.previous_hash b.nonce

/-- Embedding of `create_genesis_block`: height 0, the introductory payload,
previous hash the literal string 0, nonce 0; the wall clock is passed in as
`now`. -/
def create_genesis_block (now : Timestamp) : Block :=
  Block.make 0 now "Let there be coin." "0" 0

/-- Python truthiness of the optional `difficulty` argument: `None` and `0`
are falsy, every other integer is truthy. -/
def pyTruthy : Option Int → Bool
  | none => false
  | some d => d != 0

/-- The string `'0' * difficulty` of the source: a run of zero characters,
empty when the multiplier is not positive, exactly as Python string
repetition behaves. -/
def zerosOf : Option Int → String
  | none => ""
  | some d => String.mk (List.replicate d.toNat '0')

/-- Python `s.startswith(p)` on character lists. -/
def startsWithChars : List Char → List Char → Bool
  | _, [] => true
  | [], _ :: _ => false
  | c :: cs, p :: ps => (c == p) && startsWithChars cs ps

/-- Python `s.startswith(p)` on strings. -/
def pyStartsWith (s p : String) : Bool := startsWithChars s.data p.data

/-- The data payload `mine_next_block` stores in the block it mines, the
percent-formatting of the source made explicit. -/
def minedData (height : Nat) : String :=
  "This is where the block transactions would go.  Height: " ++ Nat.repr height ++ "."

/-- The while loop of `mine_next_block`: starting from the given nonce, build
the candidate block and return it as soon as its hash starts with the
required zero run, else retry with the next nonce. The loop of the source is
unbounded, so the embedding takes a fuel bound and returns `none` when the
fuel is exhausted before a candidate is accepted; the periodic verbose
progress line is a pure diagnostic and is not modelled. -/
def mineLoop (height : Nat) (timestamp : Timestamp) (data previous_hash : String)
    (zeros : String) : Nat → Nat → Option Block
  | _, 0 => none
  | nonce, fuel + 1 =>
    let block := Block.make height timestamp data previous_hash nonce
    if pyStartsWith block.hash zeros then some block
    else mineLoop height timestamp data previous_hash zeros (nonce + 1) fuel

/-- Embedding of `mine_next_block`: next height, a timestamp captured once
and passed in from the clock, the height-derived payload; the nonce-0 block
is returned at once when `difficulty` is falsy, otherwise the nonce search
runs (its first candidate being that same nonce-0 block, as in the source
where the block built before the loop is the first one the loop tests). -/
def mine_next_block (last_block : Block) (timestamp : Timestamp)
    (difficulty : Option Int) (fuel : Nat) : Option Block :=
  let height := last_block.height + 1
  let data := minedData height
  if pyTruthy difficulty then
    mineLoop height timestamp data last_block.hash (zerosOf difficulty) 0 fuel
  else
    some (Block.make height timestamp data last_block.hash 0)

/-- The chain-growing loop of `demo`: run `mine_next_block` on the current
tip `remaining` times, feeding each call the next clock reading, and collect
the mined blocks in order; `none` if any single search exhausts its fuel. -/
def demoLoop (difficulty : Option Int) (clock : Nat → Timestamp) (fuel : Nat) :
    Block → Nat → Nat → Option (List Block)
  | _, _, 0 => some []
  | tip, i, remaining + 1 =>
    match mine_next_block tip (clock i) difficulty fuel with
    | none => none
    | some b =>
      match demoLoop difficulty clock fuel b (i + 1) remaining with
      | none => none
      | some rest => some (b :: rest)

/-- Embedding of the chain assembly of `demo`: create the genesis block from
the first clock reading, then mine `height - 1` further blocks, each on the
previous tip; the timing and statistics output of the source is presentation
only and is not modelled. -/
def demo (height : Nat) (difficulty : Option Int) (clock : Nat → Timestamp)
    (fuel : Nat) : Option (List Block) :=
  let genesis_block := create_genesis_block (clock 0)
  match demoLoop difficulty clock fuel genesis_block 1 (height - 1) with
  | none => none
  | some rest => some (genesis_block :: rest)

/-- A default block for positional `getD` access into chains. -/
def dBlock : Block := Block.make 0 ⟨""⟩ "" "" 0

/-- Spec-side restatement of the hash derivation, following the words of the
specification: the lowercase hex encoding of the SHA-256 digest of the
concatenation, in order and with no delimiters, of the canonical textual
forms of height, timestamp, data, previous hash and nonce. Stated separately
from `hash_block` (which mirrors the sequential `update` calls of the
source) so the two can be compared. -/
def sha256HexOfFields (height : Nat) (timestamp : Timestamp) (data previous_hash : String)
    (nonce : Nat) : String :=
  hexOfBytes (sha256 (strBytes (Nat.repr height) ++ strBytes timestamp.isoformat ++
    strBytes data ++ strBytes previous_hash ++ strBytes (Nat.repr nonce)))

/-- Chain linkage seen from a tip: each successive block points at the hash
of its predecessor and sits one height above it. -/
def linked (tip : Block) : List Block → Prop
  | [] => True
  | b :: rest => b.previous_hash = tip.hash ∧ b.height = tip.height + 1 ∧ linked b rest

/-- A fixed timestamp used by concrete instantiations. -/
def wTs0 : Timestamp := ⟨"2021-01-01T00:00:00"⟩

/-- A second fixed timestamp used by concrete instantiations. -/
def wTs1 : Timestamp := ⟨"2021-01-01T00:00:05"⟩

/-- A concrete chain tip: the genesis block at the first fixed timestamp. -/
def wTip : Block := create_genesis_block wTs0

/-- A concrete deterministic clock stream. -/
def wClock : Nat → Timestamp := fun n => ⟨"2021-01-01T00:00:0" ++ Nat.repr n⟩

/-- The concrete two-block chain the builder produces from the concrete
clock with difficulty unset: the genesis block and the nonce-0 block mined
on it. -/
def wChain : List Block :=
  [create_genesis_block (wClock 0),
   Block.make ((create_genesis_block (wClock 0)).height + 1) (wClock 1)
     (minedData ((create_genesis_block (wClock 0)).height + 1))
     (create_genesis_block (wClock 0)).hash 0]

/-! Helper lemmas shared by the claim theorems. -/

/-- Python startswith of the empty string is always true. -/
theorem startsWithChars_nil (l : List Char) : startsWithChars l [] = true := by
  cases l <;> rfl

/-- Python startswith of the empty string succeeds on every string. -/
theorem pyStartsWith_empty (s : String) : pyStartsWith s (String.mk []) = true :=
  startsWithChars_nil s.data

/-- A truthy difficulty value is exactly a nonzero integer. -/
theorem pyTruthy_some (d : Int) (hd : d ≠ 0) : pyTruthy (some d) = true := by
  simp [pyTruthy, hd]

/-- Any block the mining loop returns was built by `Block.make` at some
nonce no smaller than the starting one, and its hash passes the zero-run
test. -/
theorem mineLoop_some_shape (height : Nat) (ts : Timestamp) (data prev zs : String) :
    ∀ fuel nonce b, mineLoop height ts data prev zs nonce fuel = some b →
      ∃ m, nonce ≤ m ∧ b = Block.make height ts data prev m ∧
        pyStartsWith b.hash zs = true := by
  intro fuel
  induction fuel with
  | zero => intro nonce b h; simp [mineLoop] at h
  | succ f ih =>
    intro nonce b h
    simp only [mineLoop] at h
    by_cases hc : pyStartsWith (Block.make height ts data prev nonce).hash zs = true
    · rw [if_pos hc] at h
      exact ⟨nonce, Nat.le_refl nonce, (Option.some_inj.mp h).symm, by
        rw [← Option.some_inj.mp h]; exact hc⟩
    · rw [if_neg hc] at h
      obtain ⟨m, hm, hb, hs⟩ := ih (nonce + 1) b h
      exact ⟨m, by omega, hb, hs⟩

/-- With enough fuel, the mining loop started below the least passing nonce
returns exactly the block built at that nonce. -/
theorem mineLoop_finds_least (height : Nat) (ts : Timestamp) (data prev zs : String)
    (n : Nat)
    (hn : pyStartsWith (Block.make height ts data prev n).hash zs = true) :
    ∀ fuel start, start ≤ n →
      (∀ m, start ≤ m → m < n →
        pyStartsWith (Block.make height ts data prev m).hash zs = false) →
      n - start < fuel →
      mineLoop height ts data prev zs start fuel =
        some (Block.make height ts data prev n) := by
  intro fuel
  induction fuel with
  | zero => intro start _ _ hf; omega
  | succ f ih =>
    intro start hle hmin hf
    rcases Nat.eq_or_lt_of_le hle with heq | hlt
    · subst heq
      simp only [mineLoop]
      rw [if_pos hn]
    · have hfalse := hmin start (Nat.le_refl start) hlt
      simp only [mineLoop]
      rw [if_neg (by simp [hfalse])]
      exact ih (start + 1) hlt (fun m h1 h2 => hmin m (by omega) h2) (by omega)

/-- Every block `mine_next_block` returns carries the successor height, the
supplied timestamp, the height-derived payload and the hash of the tip, and
is the canonical candidate at its own nonce. -/
theorem mine_next_fields (last_block : Block) (ts : Timestamp) (difficulty : Option Int)
    (fuel : Nat) (b : Block)
    (h : mine_next_block last_block ts difficulty fuel = some b) :
    b.height = last_block.height + 1 ∧ b.timestamp = ts ∧
      b.data = minedData (last_block.height + 1) ∧
      b.previous_hash = last_block.hash ∧
      b = Block.make (last_block.height + 1) ts (minedData (last_block.height + 1))
        last_block.hash b.nonce := by
  simp only [mine_next_block] at h
  by_cases hc : pyTruthy difficulty = true
  · rw [if_pos hc] at h
    obtain ⟨m, _, hb, _⟩ := mineLoop_some_shape _ _ _ _ _ _ _ _ h
    subst hb
    exact ⟨rfl, rfl, rfl, rfl, rfl⟩
  · rw [if_neg hc] at h
    rw [← Option.some_inj.mp h]
    exact ⟨rfl, rfl, rfl, rfl, rfl⟩

/-- The chain-growing loop returns exactly as many blocks as it was asked
to mine. -/
theorem demoLoop_length (difficulty : Option Int) (clock : Nat → Timestamp) (fuel : Nat) :
    ∀ r tip i rest, demoLoop difficulty clock fuel tip i r = some rest →
      rest.length = r := by
  intro r
  induction r with
  | zero =>
    intro tip i rest h
    simp only [demoLoop] at h
    rw [← Option.some_inj.mp h]
    rfl
  | succ k ih =>
    intro tip i rest h
    simp only [demoLoop] at h
    cases hm : mine_next_block tip (clock i) difficulty fuel with
    | none => simp only [hm] at h; exact Option.noConfusion h
    | some b =>
      simp only [hm] at h
      cases hd : demoLoop difficulty clock fuel b (i + 1) k with
      | none => simp only [hd] at h; exact Option.noConfusion h
      | some r2 =>
        simp only [hd] at h
        rw [← Option.some_inj.mp h]
        simp [ih b (i + 1) r2 hd]

/-- Successive entries of the chain the loop returns are produced by
`mine_next_block` on the previous entry, with the clock advancing one
reading per block. -/
theorem demoLoop_step (difficulty : Option Int) (clock : Nat → Timestamp) (fuel : Nat) :
    ∀ r tip i rest, demoLoop difficulty clock fuel tip i r = some rest →
      ∀ j, j + 1 < (tip :: rest).length →
        mine_next_block ((tip :: rest).getD j dBlock) (clock (i + j)) difficulty fuel =
          some ((tip :: rest).getD (j + 1) dBlock) := by
  intro r
  induction r with
  | zero =>
    intro tip i rest h j hj
    simp only [demoLoop] at h
    rw [← Option.some_inj.mp h] at hj
    simp at hj
  | succ k ih =>
    intro tip i rest h j hj
    simp only [demoLoop] at h
    cases hm : mine_next_block tip (clock i) difficulty fuel with
    | none => simp only [hm] at h; exact Option.noConfusion h
    | some b =>
      simp only [hm] at h
      cases hd : demoLoop difficulty clock fuel b (i + 1) k with
      | none => simp only [hd] at h; exact Option.noConfusion h
      | some r2 =>
        simp only [hd] at h
        rw [← Option.some_inj.mp h] at hj ⊢
        cases j with
        | zero => simpa using hm
        | succ j =>
          have hrec := ih b (i + 1) r2 hd j (by simpa using hj)
          have hidx : i + 1 + j = i + (j + 1) := by omega
          rw [hidx] at hrec
          exact hrec

/-- The loop returns a list linked to the tip it started from. -/
theorem demoLoop_linked (difficulty : Option Int) (clock : Nat → Timestamp) (fuel : Nat) :
    ∀ r tip i rest, demoLoop difficulty clock fuel tip i r = some rest →
      linked tip rest := by
  intro r
  induction r with
  | zero =>
    intro tip i rest h
    simp only [demoLoop] at h
    rw [← Option.some_inj.mp h]
    trivial
  | succ k ih =>
    intro tip i rest h
    simp only [demoLoop] at h
    cases hm : mine_next_block tip (clock i) difficulty fuel with
    | none => simp only [hm] at h; exact Option.noConfusion h
    | some b =>
      simp only [hm] at h
      cases hd : demoLoop difficulty clock fuel b (i + 1) k with
      | none => simp only [hd] at h; exact Option.noConfusion h
      | some r2 =>
        simp only [hd] at h
        rw [← Option.some_inj.mp h]
        obtain ⟨hh, _, _, hp, _⟩ := mine_next_fields tip (clock i) difficulty fuel b hm
        exact ⟨hp, hh, ih b (i + 1) r2 hd⟩

/-- A linked list of blocks satisfies the positional adjacency equations. -/
theorem linked_adj :
    ∀ rest tip, linked tip rest →
      ∀ i, i + 1 < (tip :: rest).length →
        ((tip :: rest).getD (i + 1) dBlock).previous_hash =
            ((tip :: rest).getD i dBlock).hash ∧
          ((tip :: rest).getD (i + 1) dBlock).height =
            ((tip :: rest).getD i dBlock).height + 1 := by
  intro rest
  induction rest with
  | nil => intro tip _ i hi; simp at hi
  | cons b r2 ih =>
    intro tip hl i hi
    obtain ⟨hp, hh, hrest⟩ := hl
    cases i with
    | zero => exact ⟨hp, hh⟩
    | succ i => exact ih b hrest i (by simpa using hi)

/-- Positional heights: a chain that starts at height zero and increases by
one at each step has the height of every entry equal to its index. -/
theorem chain_heights (c : List Block) (h0 : (c.getD 0 dBlock).height = 0)
    (hadj : ∀ i, i + 1 < c.length →
      (c.getD (i + 1) dBlock).height = (c.getD i dBlock).height + 1) :
    ∀ i, i < c.length → (c.getD i dBlock).height = i := by
  intro i
  induction i with
  | zero => intro _; exact h0
  | succ i ih =>
    intro hi
    rw [hadj i hi, ih (by omega)]

/-! Claim theorems. -/

/-- C1: for every Block constructed from (height, timestamp, data,
previous_hash, nonce), the hash field equals the lowercase hex encoding of
the SHA-256 digest of the concatenation, in that order and with no
delimiters, of the canonical textual forms of height, timestamp (the stored
full-precision isoformat string), data, previous_hash and nonce. -/
theorem blockHash_eq_sha256_of_concat (height : Nat) (timestamp : Timestamp)
    (data previous_hash : String) (nonce : Nat) :
    (Block.make height timestamp data previous_hash nonce).hash =
      sha256HexOfFields height timestamp data previous_hash nonce := by
  simp [Block.make, hash_block, shaUpdate, shaInit, shaHexdigest, sha256HexOfFields,
    List.append_assoc]

/-- C4: when difficulty is unset (None) or zero, `mine_next_block` returns
the successor-height block built with nonce 0 for every fuel budget — in
particular for fuel 0, so no search step is ever taken — and every block it
returns has nonce 0. -/
theorem mine_next_block_no_difficulty (last_block : Block) (ts : Timestamp)
    (difficulty : Option Int) (fuel : Nat)
    (h : difficulty = none ∨ difficulty = some 0) :
    mine_next_block last_block ts difficulty fuel =
      some (Block.make (last_block.height + 1) ts (minedData (last_block.height + 1))
        last_block.hash 0) ∧
    ∀ b, mine_next_block last_block ts difficulty fuel = some b → b.nonce = 0 := by
  have hfalse : pyTruthy difficulty = false := by
    rcases h with h | h <;> subst h <;> rfl
  constructor
  · simp only [mine_next_block]
    rw [if_neg (by simp [hfalse])]
  · intro b hb
    simp only [mine_next_block] at hb
    rw [if_neg (by simp [hfalse])] at hb
    rw [← Option.some_inj.mp hb]
    rfl

/-- C4 witness: at a concrete genesis tip, a concrete timestamp and unset
difficulty with fuel 0, the miner returns the nonce-0 successor block. -/
theorem mine_next_block_no_difficulty_witness :
    mine_next_block wTip wTs1 none 0 =
      some (Block.make (wTip.height + 1) wTs1 (minedData (wTip.height + 1))
        wTip.hash 0) ∧
    ∀ b, mine_next_block wTip wTs1 none 0 = some b → b.nonce = 0 :=
  mine_next_block_no_difficulty wTip wTs1 none 0 (Or.inl rfl)

/-- C5: `create_genesis_block` returns a block of height 0, the timestamp
the clock supplied at the call, the fixed introductory payload, previous
hash the literal string 0, and nonce 0. -/
theorem create_genesis_block_fields (now : Timestamp) :
    (create_genesis_block now).height = 0 ∧
    (create_genesis_block now).timestamp = now ∧
    (create_genesis_block now).data = "Let there be coin." ∧
    (create_genesis_block now).previous_hash = "0" ∧
    (create_genesis_block now).nonce = 0 :=
  ⟨rfl, rfl, rfl, rfl, rfl⟩

/-- C7: hash computation is deterministic — two constructions given
identical (height, timestamp, data, previous_hash, nonce) tuples produce
identical hash values. -/
theorem hash_deterministic (height₁ height₂ : Nat) (ts₁ ts₂ : Timestamp)
    (data₁ data₂ prev₁ prev₂ : String) (nonce₁ nonce₂ : Nat)
    (eh : height₁ = height₂) (et : ts₁ = ts₂) (ed : data₁ = data₂)
    (ep : prev₁ = prev₂) (en : nonce₁ = nonce₂) :
    (Block.make height₁ ts₁ data₁ prev₁ nonce₁).hash =
      (Block.make height₂ ts₂ data₂ prev₂ nonce₂).hash := by
  subst eh; subst et; subst ed; subst ep; subst en; rfl

/-- C7 witness: two constructions from one concrete tuple hash identically. -/
theorem hash_deterministic_witness :
    (Block.make 1 wTs0 "payload" "0" 3).hash =
      (Block.make 1 wTs0 "payload" "0" 3).hash :=
  hash_deterministic 1 1 wTs0 wTs0 "payload" "payload" "0" "0" 3 3
    rfl rfl rfl rfl rfl

/-- C9: for every negative difficulty, the zero-run prefix degenerates to
the empty string, which every hash satisfies, so the miner accepts its very
first candidate: it returns the nonce-0 successor block, exactly as when no
difficulty is given, and signals no error. One fuel unit reflects the single
loop-condition test the source still performs. -/
theorem mine_next_block_negative_difficulty (last_block : Block) (ts : Timestamp)
    (d : Int) (fuel : Nat) (hd : d < 0) (hf : 0 < fuel) :
    mine_next_block last_block ts (some d) fuel =
      some (Block.make (last_block.height + 1) ts (minedData (last_block.height + 1))
        last_block.hash 0) ∧
    mine_next_block last_block ts (some d) fuel = mine_next_block last_block ts none fuel := by
  have hzero : zerosOf (some d) = String.mk [] := by
    simp [zerosOf, Int.toNat_of_nonpos (Int.le_of_lt hd)]
  have ht : pyTruthy (some d) = true := pyTruthy_some d (Int.ne_of_lt hd)
  obtain ⟨f, rfl⟩ : ∃ f, fuel = f + 1 := ⟨fuel - 1, by omega⟩
  have hstep :
      mine_next_block last_block ts (some d) (f + 1) =
        some (Block.make (last_block.height + 1) ts (minedData (last_block.height + 1))
          last_block.hash 0) := by
    simp only [mine_next_block]
    rw [if_pos ht]
    simp only [mineLoop]
    rw [hzero]
    rw [if_pos (pyStartsWith_empty _)]
  refine ⟨hstep, ?_⟩
  rw [hstep]
  simp only [mine_next_block]
  rw [if_neg (by simp [pyTruthy])]

/-- C9 witness: difficulty -1 at a concrete tip with one unit of fuel
returns the nonce-0 block and agrees with the unset-difficulty result. -/
theorem mine_next_block_negative_difficulty_witness :
    mine_next_block wTip wTs1 (some (-1)) 1 =
      some (Block.make (wTip.height + 1) wTs1 (minedData (wTip.height + 1))
        wTip.hash 0) ∧
    mine_next_block wTip wTs1 (some (-1)) 1 = mine_next_block wTip wTs1 none 1 :=
  mine_next_block_negative_difficulty wTip wTs1 (-1) 1 (by decide) (by decide)

/-- C10: the miner is a pure function that reads only the height and hash of
the tip it is given — the tip itself is an immutable value in this embedding
and is returned untouched to the caller; any two tips agreeing on height and
hash yield identical mining results, whatever their other fields. -/
theorem mine_next_block_reads_only_height_and_hash (last_block other : Block)
    (ts : Timestamp) (difficulty : Option Int) (fuel : Nat)
    (hh : last_block.height = other.height) (hs : last_block.hash = other.hash) :
    mine_next_block last_block ts difficulty fuel =
      mine_next_block other ts difficulty fuel := by
  simp only [mine_next_block, hh, hs]

/-- C10 witness: two concrete tips that differ in data, previous hash, nonce
and timestamp but share height and hash are mined identically. -/
theorem mine_next_block_reads_only_height_and_hash_witness :
    mine_next_block
      { height := 0, timestamp := wTs0, data := "x", previous_hash := "p",
        nonce := 0, hash := "h" } wTs1 none 1 =
    mine_next_block
      { height := 0, timestamp := wTs1, data := "y", previous_hash := "q",
        nonce := 7, hash := "h" } wTs1 none 1 :=
  mine_next_block_reads_only_height_and_hash
    { height := 0, timestamp := wTs0, data := "x", previous_hash := "p",
      nonce := 0, hash := "h" }
    { height := 0, timestamp := wTs1, data := "y", previous_hash := "q",
      nonce := 7, hash := "h" }
    wTs1 none 1 rfl rfl

/-- C3: for a positive difficulty d, if n is the smallest nonce whose
candidate hash (at the fixed successor height, timestamp, payload and
previous hash of this search) starts with d zero characters, then the miner
— given fuel past n, since the source loop is unbounded — returns exactly
the block built from n, and that hash passes the d-zero-run test. -/
theorem mine_next_block_finds_least_nonce (last_block : Block) (ts : Timestamp)
    (d : Int) (n fuel : Nat) (hd : 0 < d)
    (hn : pyStartsWith
      (Block.make (last_block.height + 1) ts (minedData (last_block.height + 1))
        last_block.hash n).hash (zerosOf (some d)) = true)
    (hleast : ∀ m, m < n → pyStartsWith
      (Block.make (last_block.height + 1) ts (minedData (last_block.height + 1))
        last_block.hash m).hash (zerosOf (some d)) = false)
    (hfuel : n < fuel) :
    mine_next_block last_block ts (some d) fuel =
      some (Block.make (last_block.height + 1) ts (minedData (last_block.height + 1))
        last_block.hash n) ∧
    pyStartsWith
      (Block.make (last_block.height + 1) ts (minedData (last_block.height + 1))
        last_block.hash n).hash (zerosOf (some d)) = true := by
  refine ⟨?_, hn⟩
  have ht : pyTruthy (some d) = true := pyTruthy_some d (by omega)
  simp only [mine_next_block]
  rw [if_pos ht]
  exact mineLoop_finds_least _ _ _ _ _ n hn fuel 0 (Nat.zero_le n)
    (fun m _ hm => hleast m hm) (by omega)

set_option maxRecDepth 1000000 in
/-- C3 witness: at the concrete genesis tip and timestamp
2021-01-01T00:00:05, difficulty 1 is first met at nonce 2, and the miner
with fuel 3 returns exactly that block. -/
theorem mine_next_block_finds_least_nonce_witness :
    mine_next_block wTip wTs1 (some 1) 3 =
      some (Block.make (wTip.height + 1) wTs1 (minedData (wTip.height + 1))
        wTip.hash 2) ∧
    pyStartsWith
      (Block.make (wTip.height + 1) wTs1 (minedData (wTip.height + 1))
        wTip.hash 2).hash (zerosOf (some 1)) = true :=
  mine_next_block_finds_least_nonce wTip wTs1 1 2 3 (by decide) (by decide)
    (by decide) (by decide)

/-- C8: the timestamp is captured once per call — the embedding threads a
single clock reading through the whole search — and whatever the difficulty
and fuel, the block the miner returns carries the fixed successor height,
that single timestamp, the payload derived from the height, and the hash of
the tip; it is the canonical candidate at its own nonce, so candidates can
differ in nonce only. -/
theorem mine_next_block_fixed_fields (last_block : Block) (ts : Timestamp)
    (difficulty : Option Int) (fuel : Nat) (b : Block)
    (h : mine_next_block last_block ts difficulty fuel = some b) :
    b.height = last_block.height + 1 ∧ b.timestamp = ts ∧
      b.data = minedData (last_block.height + 1) ∧
      b.previous_hash = last_block.hash ∧
      b = Block.make (last_block.height + 1) ts (minedData (last_block.height + 1))
        last_block.hash b.nonce :=
  mine_next_fields last_block ts difficulty fuel b h

/-- C8 witness: the block mined on the concrete genesis tip with unset
difficulty carries the successor height, the supplied timestamp, the
height-derived payload and the genesis hash. -/
theorem mine_next_block_fixed_fields_witness :
    (Block.make (wTip.height + 1) wTs1 (minedData (wTip.height + 1))
        wTip.hash 0).height = wTip.height + 1 ∧
    (Block.make (wTip.height + 1) wTs1 (minedData (wTip.height + 1))
        wTip.hash 0).timestamp = wTs1 ∧
    (Block.make (wTip.height + 1) wTs1 (minedData (wTip.height + 1))
        wTip.hash 0).data = minedData (wTip.height + 1) ∧
    (Block.make (wTip.height + 1) wTs1 (minedData (wTip.height + 1))
        wTip.hash 0).previous_hash = wTip.hash ∧
    Block.make (wTip.height + 1) wTs1 (minedData (wTip.height + 1)) wTip.hash 0 =
      Block.make (wTip.height + 1) wTs1 (minedData (wTip.height + 1)) wTip.hash
        (Block.make (wTip.height + 1) wTs1 (minedData (wTip.height + 1))
          wTip.hash 0).nonce :=
  mine_next_block_fixed_fields wTip wTs1 none 0
    (Block.make (wTip.height + 1) wTs1 (minedData (wTip.height + 1)) wTip.hash 0) rfl

/-- C2: every chain the builder returns — for any target height, difficulty,
clock and fuel — has its genesis entry at height 0 with previous hash the
literal string 0, and every later entry points at the hash of its
predecessor and sits at height equal to its index. -/
theorem demo_chain_linkage (height : Nat) (difficulty : Option Int)
    (clock : Nat → Timestamp) (fuel : Nat) (chain : List Block)
    (h : demo height difficulty clock fuel = some chain) :
    (chain.getD 0 dBlock).height = 0 ∧
    (chain.getD 0 dBlock).previous_hash = "0" ∧
    ∀ i, 0 < i → i < chain.length →
      (chain.getD i dBlock).previous_hash = (chain.getD (i - 1) dBlock).hash ∧
      (chain.getD i dBlock).height = i := by
  simp only [demo] at h
  cases hd : demoLoop difficulty clock fuel (create_genesis_block (clock 0)) 1
      (height - 1) with
  | none => simp only [hd] at h; exact Option.noConfusion h
  | some rest =>
    simp only [hd] at h
    rw [← Option.some_inj.mp h]
    have hl := demoLoop_linked difficulty clock fuel (height - 1)
      (create_genesis_block (clock 0)) 1 rest hd
    have hadj := linked_adj rest (create_genesis_block (clock 0)) hl
    have hh : ∀ i, i < (create_genesis_block (clock 0) :: rest).length →
        ((create_genesis_block (clock 0) :: rest).getD i dBlock).height = i :=
      chain_heights _ rfl (fun i hi => (hadj i hi).2)
    refine ⟨rfl, rfl, ?_⟩
    intro i hpos hlen
    obtain ⟨j, rfl⟩ : ∃ j, i = j + 1 := ⟨i - 1, by omega⟩
    refine ⟨?_, hh (j + 1) hlen⟩
    have hstep := (hadj j hlen).1
    simpa using hstep

/-- C2 witness: the concrete two-block chain built with difficulty unset
satisfies the genesis and linkage invariants. -/
theorem demo_chain_linkage_witness :
    (wChain.getD 0 dBlock).height = 0 ∧
    (wChain.getD 0 dBlock).previous_hash = "0" ∧
    ∀ i, 0 < i → i < wChain.length →
      (wChain.getD i dBlock).previous_hash = (wChain.getD (i - 1) dBlock).hash ∧
      (wChain.getD i dBlock).height = i :=
  demo_chain_linkage 2 none wClock 0 wChain rfl

/-- C6: with a target height of at least 1, the builder returns a chain of
exactly that many blocks, headed by the genesis block built from the first
clock reading, in which every later entry is the block `mine_next_block`
produces from the previous entry and the next clock reading — that is, the
miner is invoked once per non-genesis entry, targetHeight - 1 times in all,
each time on the current tip, and its result is appended. -/
theorem demo_builds_chain (height : Nat) (difficulty : Option Int)
    (clock : Nat → Timestamp) (fuel : Nat) (chain : List Block)
    (h1 : 1 ≤ height) (h : demo height difficulty clock fuel = some chain) :
    chain.length = height ∧
    chain.getD 0 dBlock = create_genesis_block (clock 0) ∧
    ∀ i, i + 1 < chain.length →
      mine_next_block (chain.getD i dBlock) (clock (i + 1)) difficulty fuel =
        some (chain.getD (i + 1) dBlock) := by
  simp only [demo] at h
  cases hd : demoLoop difficulty clock fuel (create_genesis_block (clock 0)) 1
      (height - 1) with
  | none => simp only [hd] at h; exact Option.noConfusion h
  | some rest =>
    simp only [hd] at h
    rw [← Option.some_inj.mp h]
    have hlen := demoLoop_length difficulty clock fuel (height - 1)
      (create_genesis_block (clock 0)) 1 rest hd
    refine ⟨by simp only [List.length_cons, hlen]; omega, rfl, ?_⟩
    intro j hj
    have hstep := demoLoop_step difficulty clock fuel (height - 1)
      (create_genesis_block (clock 0)) 1 rest hd j hj
    rw [Nat.add_comm 1 j] at hstep
    exact hstep

/-- C6 witness: with target height 2 and difficulty unset, the builder
returns the concrete two-block chain, whose second entry is mined from the
first. -/
theorem demo_builds_chain_witness :
    wChain.length = 2 ∧
    wChain.getD 0 dBlock = create_genesis_block (wClock 0) ∧
    ∀ i, i + 1 < wChain.length →
      mine_next_block (wChain.getD i dBlock) (wClock (i + 1)) none 0 =
        some (wChain.getD (i + 1) dBlock) :=
  demo_builds_chain 2 none wClock 0 wChain (by decide) rfl

end SpamCoin
